import Mathlib

/-!
Verification development for the `rjv` audio plugin.

The development shallowly embeds the two source files that carry the
program logic:

* `src/code_editor.rs` — the syntax-highlighting tokenizer
  (`Highlighter::highlight` and `is_keyword`), modelled on `List Char`
  (Rust slices text at byte indices, but every index the code produces is
  a character boundary, so the character-list view is faithful);
* `src/lib.rs` — the per-block script evaluator and peak meter
  (`Rjv::process`, `Rjv::initialize`, `RjvParams::code`,
  `Rjv::default`), with `f32`/`f64` arithmetic idealised over `ℚ`
  (where the claims are about exact data flow) and over `ℝ` (where the
  claims are about the real-valued decay formula), and the embedded JS
  engine (`js_sandbox::Script`) abstracted by its contract: a fallible
  compile producing a fallible callable.
-/

/-! ## Character classes (Rust `char::is_ascii_alphanumeric`,
`char::is_ascii_whitespace`) -/

/-- Rust `char::is_ascii_alphanumeric`: `'a'..='z' | 'A'..='Z' | '0'..='9'`. -/
def isAsciiAlphanumeric (c : Char) : Bool :=
  (decide ('a' ≤ c) && decide (c ≤ 'z'))
    || (decide ('A' ≤ c) && decide (c ≤ 'Z'))
    || (decide ('0' ≤ c) && decide (c ≤ '9'))

/-- Rust `char::is_ascii_whitespace`: space, tab, newline, form feed,
carriage return. -/
def isAsciiWhitespace (c : Char) : Bool :=
  c == ' ' || c == '\t' || c == '\n' || c == '\x0C' || c == '\r'

/-- Rust `str::find(pred)` restricted to the character-index view: index of
the first character satisfying `p`, if any. -/
def strFind (p : Char → Bool) : List Char → Option Nat
  | [] => none
  | c :: cs => if p c then some 0 else (strFind p cs).map (fun i => i + 1)

/-! ## Token kinds and the reserved-word set (`code_editor.rs`) -/

/-- Token kinds: `TokenType` from `code_editor.rs` (the theme colour map attached to each
kind is display-only and out of scope). -/
inductive TokenType : Type
  | Comment
  | Keyword
  | Literal
  | StringLiteral
  | Punctuation
  | Whitespace
  deriving DecidableEq, Repr

/-- The reserved-word test `is_keyword` from `code_editor.rs`: the fixed reserved-word set. -/
def is_keyword (word : String) : Bool :=
  word = "as" || word = "async" || word = "await" || word = "break"
    || word = "const" || word = "continue" || word = "crate" || word = "dyn"
    || word = "else" || word = "enum" || word = "extern" || word = "false"
    || word = "fn" || word = "for" || word = "if" || word = "impl"
    || word = "in" || word = "let" || word = "loop" || word = "match"
    || word = "mod" || word = "move" || word = "mut" || word = "pub"
    || word = "ref" || word = "return" || word = "self" || word = "Self"
    || word = "static" || word = "struct" || word = "super" || word = "trait"
    || word = "true" || word = "type" || word = "unsafe" || word = "use"
    || word = "where" || word = "while"

/-- Rust `str::starts_with(pred)`: does the first character satisfy `p`? -/
def startsWithPred (p : Char → Bool) : List Char → Bool
  | [] => false
  | c :: _ => p c

/-- One iteration of the `while !text.is_empty()` loop body of
`Highlighter::highlight`: the kind of the next token and the number of
characters it spans.  The branch order and the end-of-token computations
mirror the source exactly. -/
def nextToken (text : List Char) : TokenType × Nat :=
  if text.take 2 = ['/', '/'] then
    (TokenType.Comment, (strFind (fun c => c == '\n') text).getD text.length)
  else if startsWithPred (fun c => c == '"') text then
    (TokenType.StringLiteral,
      ((strFind (fun c => c == '"') (text.drop 1)).map (fun i => i + 2)).getD
        ((strFind (fun c => c == '\n') text).getD text.length))
  else if startsWithPred isAsciiAlphanumeric text then
    (if is_keyword (String.mk (text.take
        (((strFind (fun c => ! isAsciiAlphanumeric c) (text.drop 1)).map
          (fun i => i + 1)).getD text.length)))
      then TokenType.Keyword else TokenType.Literal,
      ((strFind (fun c => ! isAsciiAlphanumeric c) (text.drop 1)).map
        (fun i => i + 1)).getD text.length)
  else if startsWithPred isAsciiWhitespace text then
    (TokenType.Whitespace,
      ((strFind (fun c => ! isAsciiWhitespace c) (text.drop 1)).map
        (fun i => i + 1)).getD text.length)
  else
    (TokenType.Punctuation, 1)

/-- The tokenizing loop of `Highlighter::highlight`, with an explicit fuel
argument (the loop consumes at least one character per iteration, so fuel
equal to the input length suffices; `highlight` below instantiates it so). -/
def highlightGo : Nat → List Char → List (TokenType × List Char)
  | 0, _ => []
  | _ + 1, [] => []
  | fuel + 1, c :: cs =>
    ((nextToken (c :: cs)).1, (c :: cs).take (nextToken (c :: cs)).2)
      :: highlightGo fuel ((c :: cs).drop (nextToken (c :: cs)).2)

/-- The function `Highlighter::highlight` from `code_editor.rs`, as the list of
`(kind, span)` pairs appended to the layout job. -/
def highlight (text : List Char) : List (TokenType × List Char) :=
  highlightGo text.length text

/-! ## The per-block evaluator and peak meter (`lib.rs`) -/

/-- The time it takes for the peak meter to decay by 12 dB after switching
to complete silence (`PEAK_METER_DECAY_MS` in `lib.rs`). -/
def PEAK_METER_DECAY_MS : ℝ := 150.0

/-- The decay weight computed in `Rjv::initialize`:
`0.25f64.powf((sample_rate * PEAK_METER_DECAY_MS / 1000.0).recip())`,
idealised over the reals (real power in place of `f64::powf`). -/
noncomputable def peak_meter_decay_weight (sample_rate : ℝ) : ℝ :=
  (0.25 : ℝ) ^ (sample_rate * PEAK_METER_DECAY_MS / 1000)⁻¹

/-- The peak-meter initial value: `nih_plug`'s documented constant
`util::MINUS_INFINITY_DB = -100.0` (a decibel value), stored into the
`peak_meter` atomic by `Rjv::default`. -/
def MINUS_INFINITY_DB : ℚ := -100

/-- One peak-meter update from the body of `Rjv::process`:
`if amplitude > current { amplitude } else { current * w + amplitude * (1 - w) }`. -/
def peakUpdate {α : Type} [LinearOrderedField α] (w amplitude current : α) : α :=
  if amplitude > current then amplitude
  else current * w + amplitude * (1 - w)

/-- The states the shared `peak_meter` scalar can hold: its initial value,
and the result of any number of updates in which the measured amplitude is
an absolute value (hence nonnegative) and the decay weight lies in `[0, 1]`
(its initial value is `1.0` and `Rjv::initialize` assigns a value in
`(0, 1)` for every positive sample rate). -/
inductive PeakReachable : ℚ → Prop
  | init : PeakReachable MINUS_INFINITY_DB
  | step (w amplitude current : ℚ) : PeakReachable current → 0 ≤ amplitude →
      0 ≤ w → w ≤ 1 → PeakReachable (peakUpdate w amplitude current)

/-- The JS source built in `Rjv::process`:
`format!("function gain(t) \x7b\x7b return \x7b\x7d; \x7d\x7d", code)`. -/
def js_code (code : String) : String :=
  "function gain(t) \x7b return " ++ code ++ "; \x7d"

/-- Model of `script.as_mut().and_then(|s| s.call("gain", &time).ok())`: the embedded
engine is abstracted by its contract, a compiled script being a fallible
callable from the time argument to the returned gain. -/
def gain_processed (script : Option (ℚ → Option ℚ)) (time : ℚ) : Option ℚ :=
  script.bind (fun s => s time)

/-- The gain actually applied to the samples at one index:
`gain_processed.unwrap_or(0.0)`. -/
def resolvedGain (script : Option (ℚ → Option ℚ)) (time : ℚ) : ℚ :=
  (gain_processed script time).getD 0

/-- The `for (sample_id, channel_samples) in buffer.iter_samples().enumerate()`
loop of `Rjv::process`, over exact rationals.  Each frame is the list of the
channels' samples at one index.  Returns the final peak-meter value and the
mutated buffer.  `num_samples` keeps the source's (misleading) name for
`channel_samples.len()`, the number of channels at one sample index. -/
def processSamples (script : Option (ℚ → Option ℚ)) (sample_rate time_s w : ℚ)
    (editorOpen : Bool) : Nat → ℚ → List (List ℚ) → ℚ × List (List ℚ)
  | _, peak, [] => (peak, [])
  | sample_id, peak, frame :: rest =>
    let time := time_s + (sample_id : ℚ) / sample_rate
    let g := resolvedGain script time
    let out := frame.map (fun s => s * g)
    let amplitude := out.sum
    let num_samples : ℚ := (frame.length : ℚ)
    let peak2 := if editorOpen then peakUpdate w |amplitude / num_samples| peak
      else peak
    let r := processSamples script sample_rate time_s w editorOpen
      (sample_id + 1) peak2 rest
    (r.1, out :: r.2)

/-- One call of `Rjv::process`: build the script from the active code via
the engine's fallible compile, run the sample loop from index `0`, and
advance the running time by `block_length / sample_rate`.  Returns
`(final peak, output frames, new time_s)`. -/
def process (compile : String → Option (ℚ → Option ℚ)) (code : String)
    (sample_rate time_s w : ℚ) (editorOpen : Bool) (peak : ℚ)
    (buffer : List (List ℚ)) : ℚ × List (List ℚ) × ℚ :=
  let script := compile (js_code code)
  let r := processSamples script sample_rate time_s w editorOpen 0 peak buffer
  (r.1, r.2, time_s + (buffer.length : ℚ) / sample_rate)

/-- Slot selection `RjvParams::code`: the index of the expression slot selected by the
`preset` parameter (an `i32`), following the source's `if`/`else` chain. -/
def RjvParams.code (preset : ℤ) : ℕ :=
  if preset = 1 then 1
  else if preset = 2 then 2
  else if preset = 3 then 3
  else if preset = 4 then 4
  else if preset = 5 then 5
  else 6

/-- Amended-claim-side description of the metered amplitude at one sample
index: the signed sum of the post-gain channel samples at that index,
divided by the number of channels at that index, in absolute value. -/
def frameAmplitude (g : ℚ) (frame : List ℚ) : ℚ :=
  |(frame.map (fun s => s * g)).sum / (frame.length : ℚ)|

/-- Amended-claim-side description of the peak-meter trajectory while the
editor is open: fold `peakUpdate` over the per-index amplitudes of
`frameAmplitude`. -/
def peakTrajectory (script : Option (ℚ → Option ℚ)) (sample_rate time_s w : ℚ) :
    Nat → ℚ → List (List ℚ) → ℚ
  | _, peak, [] => peak
  | sample_id, peak, frame :: rest =>
    peakTrajectory script sample_rate time_s w (sample_id + 1)
      (peakUpdate w
        (frameAmplitude
          (resolvedGain script (time_s + (sample_id : ℚ) / sample_rate)) frame)
        peak) rest

/-! ## Tokenizer lemmas -/

theorem strFind_eq_none_of (p : Char → Bool) (l : List Char)
    (h : ∀ c ∈ l, p c = false) : strFind p l = none := by
  induction l with
  | nil => rfl
  | cons c cs ih =>
    have hc := h c (List.mem_cons_self c cs)
    have ih2 := ih (fun x hx => h x (List.mem_cons_of_mem c hx))
    simp [strFind, hc, ih2]

theorem mem_of_strFind_eq_none (p : Char → Bool) (l : List Char)
    (h : strFind p l = none) : ∀ c ∈ l, p c = false := by
  induction l with
  | nil => intro c hc; simp at hc
  | cons a as ih =>
    intro c hc
    cases hpa : p a with
    | true => simp [strFind, hpa] at h
    | false =>
      rcases List.mem_cons.mp hc with hceq | hmem
      · subst hceq
        exact hpa
      · rcases hcs : strFind p as with _ | j
        · exact ih hcs c hmem
        · simp [strFind, hpa, hcs] at h

theorem strFind_append_of_none (p : Char → Bool) (l1 l2 : List Char)
    (h : strFind p l1 = none) :
    strFind p (l1 ++ l2) = (strFind p l2).map (fun i => i + l1.length) := by
  induction l1 with
  | nil => simp
  | cons c cs ih =>
    have hpc : p c = false := by
      cases hpc : p c with
      | false => rfl
      | true => rw [strFind, hpc] at h; simp at h
    have hcs : strFind p cs = none := by
      rcases hcs : strFind p cs with _ | j
      · rfl
      · rw [strFind, hpc, hcs] at h; simp at h
    rw [List.cons_append]
    simp only [strFind, hpc, Bool.false_eq_true, if_false]
    rw [ih hcs, Option.map_map]
    rcases strFind p l2 with _ | i
    · simp
    · show some (i + cs.length + 1) = some (i + (c :: cs).length)
      simp only [List.length_cons, Option.some.injEq]
      omega

theorem strFind_getD_len_pos (p : Char → Bool) (c : Char) (cs : List Char)
    (h : p c = false) :
    1 ≤ (strFind p (c :: cs)).getD (c :: cs).length := by
  simp only [strFind, h, Bool.false_eq_true, if_false]
  rcases strFind p cs with _ | i <;> simp

theorem take_strFind_eq_takeWhile (p : Char → Bool) (l : List Char) :
    l.take ((strFind (fun x => ! p x) l).getD l.length) = l.takeWhile p := by
  induction l with
  | nil => rfl
  | cons c cs ih =>
    cases hc : p c with
    | true =>
      have hstep : strFind (fun x => ! p x) (c :: cs)
          = (strFind (fun x => ! p x) cs).map (fun i => i + 1) := by
        simp [strFind, hc]
      rw [hstep, List.takeWhile_cons_of_pos hc]
      rcases hf : strFind (fun x => ! p x) cs with _ | i <;> rw [hf] at ih <;>
        exact congrArg (List.cons c) ih
    | false =>
      have hstep : strFind (fun x => ! p x) (c :: cs) = some 0 := by
        simp [strFind, hc]
      rw [hstep, List.takeWhile_cons_of_neg (by simp [hc])]
      rfl

theorem drop_strFind_eq_dropWhile (p : Char → Bool) (l : List Char) :
    l.drop ((strFind (fun x => ! p x) l).getD l.length) = l.dropWhile p := by
  induction l with
  | nil => rfl
  | cons c cs ih =>
    cases hc : p c with
    | true =>
      have hstep : strFind (fun x => ! p x) (c :: cs)
          = (strFind (fun x => ! p x) cs).map (fun i => i + 1) := by
        simp [strFind, hc]
      rw [hstep, List.dropWhile_cons_of_pos hc]
      rcases hf : strFind (fun x => ! p x) cs with _ | i <;> rw [hf] at ih <;>
        exact ih
    | false =>
      have hstep : strFind (fun x => ! p x) (c :: cs) = some 0 := by
        simp [strFind, hc]
      rw [hstep, List.dropWhile_cons_of_neg (by simp [hc])]
      rfl

theorem nextToken_snd_pos (c : Char) (cs : List Char) :
    1 ≤ (nextToken (c :: cs)).2 := by
  unfold nextToken
  split_ifs with h1 h2 h3 hk h4
  · have hc : c = '/' := by
      rw [List.take_succ_cons] at h1
      exact (List.cons.injEq _ _ _ _ ▸ h1).1
    subst hc
    exact strFind_getD_len_pos _ _ _ (by decide)
  · have hc : c = '"' := by
      simpa [startsWithPred] using h2
    subst hc
    cases hf : strFind (fun c => c == '"') ((('"' : Char) :: cs).drop 1)
      with
    | none =>
      simp only [hf, Option.map_none, Option.getD_none]
      exact strFind_getD_len_pos _ _ _ (by decide)
    | some i => simp [hf]
  · cases hf : strFind (fun c => ! isAsciiAlphanumeric c) ((c :: cs).drop 1)
      with
    | none => simp [hf]
    | some i => simp [hf]
  · cases hf : strFind (fun c => ! isAsciiAlphanumeric c) ((c :: cs).drop 1)
      with
    | none => simp [hf]
    | some i => simp [hf]
  · cases hf : strFind (fun c => ! isAsciiWhitespace c) ((c :: cs).drop 1)
      with
    | none => simp [hf]
    | some i => simp [hf]
  · exact le_refl 1

theorem highlightGo_congr (f1 : ℕ) : ∀ (f2 : ℕ) (t : List Char),
    t.length ≤ f1 → t.length ≤ f2 → highlightGo f1 t = highlightGo f2 t := by
  induction f1 with
  | zero =>
    intro f2 t h1 _
    have ht : t = [] := List.length_eq_zero.mp (Nat.le_zero.mp h1)
    subst ht
    cases f2 <;> rfl
  | succ f1 ih =>
    intro f2 t h1 h2
    cases t with
    | nil => cases f2 <;> rfl
    | cons c cs =>
      cases f2 with
      | zero => simp at h2
      | succ g =>
        simp only [highlightGo]
        have hn := nextToken_snd_pos c cs
        have hlen : ((c :: cs).drop (nextToken (c :: cs)).2).length ≤ f1 := by
          simp only [List.length_drop, List.length_cons]
          simp only [List.length_cons] at h1
          omega
        have hlen2 : ((c :: cs).drop (nextToken (c :: cs)).2).length ≤ g := by
          simp only [List.length_drop, List.length_cons]
          simp only [List.length_cons] at h2
          omega
        rw [ih g _ hlen hlen2]

theorem highlight_cons (c : Char) (cs : List Char) :
    highlight (c :: cs)
      = ((nextToken (c :: cs)).1, (c :: cs).take (nextToken (c :: cs)).2)
        :: highlight ((c :: cs).drop (nextToken (c :: cs)).2) := by
  have hlen : ((c :: cs).drop (nextToken (c :: cs)).2).length ≤ cs.length := by
    have hn := nextToken_snd_pos c cs
    simp only [List.length_drop, List.length_cons]
    omega
  show highlightGo (cs.length + 1) (c :: cs) = _
  simp only [highlightGo]
  rw [highlightGo_congr cs.length ((c :: cs).drop (nextToken (c :: cs)).2).length
    ((c :: cs).drop (nextToken (c :: cs)).2) hlen (le_refl _)]
  rfl

theorem highlight_flatten (n : ℕ) : ∀ t : List Char, t.length ≤ n →
    ((highlight t).map Prod.snd).flatten = t := by
  induction n with
  | zero =>
    intro t h
    have ht : t = [] := List.length_eq_zero.mp (Nat.le_zero.mp h)
    subst ht
    rfl
  | succ n ih =>
    intro t h
    cases t with
    | nil => rfl
    | cons c cs =>
      rw [highlight_cons]
      simp only [List.map_cons, List.flatten_cons]
      have hn := nextToken_snd_pos c cs
      rw [ih ((c :: cs).drop (nextToken (c :: cs)).2) (by
        simp only [List.length_drop, List.length_cons]
        simp only [List.length_cons] at h
        omega)]
      exact List.take_append_drop _ _

theorem strFind_some_lt_length (p : Char → Bool) :
    ∀ (l : List Char) (i : ℕ), strFind p l = some i → i < l.length := by
  intro l
  induction l with
  | nil => intro i h; simp [strFind] at h
  | cons c cs ih =>
    intro i h
    cases hc : p c with
    | true =>
      simp [strFind, hc] at h
      simp only [List.length_cons]
      omega
    | false =>
      simp [strFind, hc] at h
      obtain ⟨j, hj, hji⟩ := h
      have := ih j hj
      simp only [List.length_cons]
      omega

theorem strFind_getD_eq_takeWhile_length (p : Char → Bool) (l : List Char) :
    (strFind (fun x => ! p x) l).getD l.length = (l.takeWhile p).length := by
  conv_rhs => rw [← take_strFind_eq_takeWhile p l]
  rw [List.length_take]
  have hle : (strFind (fun x => ! p x) l).getD l.length ≤ l.length := by
    rcases hf : strFind (fun x => ! p x) l with _ | i
    · simp
    · simp only [Option.getD_some]
      exact le_of_lt (strFind_some_lt_length _ l i hf)
  omega

theorem nextToken_string (rest : List Char) :
    nextToken ('"' :: rest)
      = (TokenType.StringLiteral,
        ((strFind (fun c => c == '"') rest).map (fun i => i + 2)).getD
          ((strFind (fun c => c == '\n') ('"' :: rest)).getD (rest.length + 1))) := by
  unfold nextToken
  rw [if_neg (by rw [List.take_succ_cons]; simp), if_pos (by rfl)]
  rfl

theorem nextToken_alnum (c : Char) (cs : List Char)
    (h : isAsciiAlphanumeric c = true) :
    nextToken (c :: cs)
      = ((if is_keyword (String.mk ((c :: cs).takeWhile isAsciiAlphanumeric))
          then TokenType.Keyword else TokenType.Literal),
        ((c :: cs).takeWhile isAsciiAlphanumeric).length) := by
  have hbr : ((strFind (fun x => ! isAsciiAlphanumeric x) ((c :: cs).drop 1)).map
        (fun i => i + 1)).getD (c :: cs).length
      = (strFind (fun x => ! isAsciiAlphanumeric x) (c :: cs)).getD
        ((c :: cs).length) := by
    have hstep : strFind (fun x => ! isAsciiAlphanumeric x) (c :: cs)
        = (strFind (fun x => ! isAsciiAlphanumeric x) cs).map (fun i => i + 1) := by
      simp [strFind, h]
    rw [hstep]
    rfl
  have hn : ((strFind (fun x => ! isAsciiAlphanumeric x) ((c :: cs).drop 1)).map
        (fun i => i + 1)).getD (c :: cs).length
      = ((c :: cs).takeWhile isAsciiAlphanumeric).length := by
    rw [hbr, strFind_getD_eq_takeWhile_length]
  have hword : (c :: cs).take
        (((strFind (fun x => ! isAsciiAlphanumeric x) ((c :: cs).drop 1)).map
          (fun i => i + 1)).getD (c :: cs).length)
      = (c :: cs).takeWhile isAsciiAlphanumeric := by
    rw [hbr, take_strFind_eq_takeWhile]
  unfold nextToken
  rw [if_neg, if_neg, if_pos]
  · rw [Prod.mk.injEq]
    constructor
    · rw [hword]
    · exact hn
  · show startsWithPred isAsciiAlphanumeric (c :: cs) = true
    simpa [startsWithPred] using h
  · show ¬ startsWithPred (fun c => c == '"') (c :: cs) = true
    simp only [startsWithPred, beq_iff_eq]
    intro hc
    subst hc
    simp [isAsciiAlphanumeric] at h
  · intro hcon
    rw [List.take_succ_cons] at hcon
    have hc : c = '/' := (List.cons.injEq _ _ _ _ ▸ hcon).1
    subst hc
    simp [isAsciiAlphanumeric] at h

/-- Claim C3: for every input string, the tokenizer produces a left-to-right
sequence of non-overlapping, contiguous spans whose concatenation equals the
input exactly, and the empty input yields zero tokens. -/
theorem tokenize_lossless_coverage :
    (∀ text : List Char, ((highlight text).map Prod.snd).flatten = text)
      ∧ highlight ([] : List Char) = [] :=
  ⟨fun text => highlight_flatten text.length text (le_refl _), rfl⟩

/-- Claim C9: at an input position starting with an ASCII alphanumeric
character, the token is the maximal run of ASCII alphanumeric characters,
classified `Keyword` exactly when the run is in the fixed reserved-word set
(which contains `fn`, `while` and `true`), else `Literal`. -/
theorem alnum_token_maximal_keyword_classified (c : Char) (cs : List Char)
    (h : isAsciiAlphanumeric c = true) :
    highlight (c :: cs)
      = ((if is_keyword (String.mk ((c :: cs).takeWhile isAsciiAlphanumeric))
          then TokenType.Keyword else TokenType.Literal),
          (c :: cs).takeWhile isAsciiAlphanumeric)
        :: highlight ((c :: cs).dropWhile isAsciiAlphanumeric)
      ∧ is_keyword "fn" = true ∧ is_keyword "while" = true
        ∧ is_keyword "true" = true := by
  refine ⟨?_, by decide, by decide, by decide⟩
  have key : ∀ (l tw dw : List Char), tw ++ dw = l →
      l.take tw.length = tw ∧ l.drop tw.length = dw := by
    intro l tw dw hs
    subst hs
    exact ⟨List.take_left _ _, List.drop_left _ _⟩
  obtain ⟨h1, h2⟩ := key (c :: cs) _ _
    (List.takeWhile_append_dropWhile (p := isAsciiAlphanumeric) (l := c :: cs))
  rw [highlight_cons, nextToken_alnum c cs h, h1, h2]

/-- Claim C9 witness: the input `fn(` begins with the alphanumeric `f`; its
first token is the keyword `fn` and tokenizing resumes at `(`. -/
theorem alnum_token_maximal_keyword_classified_witness :
    isAsciiAlphanumeric 'f' = true
      ∧ (highlight ['f', 'n', '(']
          = ((if is_keyword (String.mk ((['f', 'n', '(']).takeWhile
                isAsciiAlphanumeric))
              then TokenType.Keyword else TokenType.Literal),
              (['f', 'n', '(']).takeWhile isAsciiAlphanumeric)
            :: highlight ((['f', 'n', '(']).dropWhile isAsciiAlphanumeric)
          ∧ is_keyword "fn" = true ∧ is_keyword "while" = true
            ∧ is_keyword "true" = true) :=
  ⟨by decide, alnum_token_maximal_keyword_classified 'f' ['n', '('] (by decide)⟩

/-- Claim C4 counterexample: in `"a<newline>b"` there is no closing quote
before the newline, yet the string token is the whole input (the scanner
accepts the quote on the following line as terminator), not `"a`. -/
theorem string_token_stops_at_newline_counterexample :
    highlight ['"', 'a', '\n', 'b', '"']
        = [(TokenType.StringLiteral, ['"', 'a', '\n', 'b', '"'])]
      ∧ ¬ (highlight ['"', 'a', '\n', 'b', '"']
        = (TokenType.StringLiteral, ['"', 'a'])
          :: highlight ['\n', 'b', '"']) := by
  constructor
  · decide
  · decide

/-- Claim C4 (amended): at an input position starting with a double-quote
whose following text consists of a quote-free, newline-free segment `pre`,
then a newline, then `post` (so no closing quote occurs before the next
newline, the claim's premise), the string token does not stop at that
newline whenever a closing quote occurs later: it extends through the first
closing quote of `post` (inclusive), swallowing the newline; only when no
closing quote occurs anywhere in `post` does the token extend exactly to
the newline (exclusive). -/
theorem string_token_newline_fallback (pre post : List Char)
    (hq : ('"' : Char) ∉ pre) (hn : ('\n' : Char) ∉ pre) :
    highlight ('"' :: (pre ++ '\n' :: post))
      = match strFind (fun c => c == '"') post with
        | none => (TokenType.StringLiteral, '"' :: pre)
            :: highlight ('\n' :: post)
        | some i => (TokenType.StringLiteral,
              '"' :: (pre ++ '\n' :: post.take (i + 1)))
            :: highlight (post.drop (i + 1)) := by
  have hqpre : strFind (fun c => c == '"') pre = none :=
    strFind_eq_none_of _ _ (fun c hc => by
      simp only [beq_eq_false_iff_ne]
      intro hceq
      exact hq (hceq ▸ hc))
  have hnpre : strFind (fun c => c == '\n') pre = none :=
    strFind_eq_none_of _ _ (fun c hc => by
      simp only [beq_eq_false_iff_ne]
      intro hceq
      exact hn (hceq ▸ hc))
  rcases hcase : strFind (fun c => c == '"') post with _ | i
  · have hqpost : ('"' : Char) ∉ post := by
      intro hmem
      have hfalse := mem_of_strFind_eq_none _ _ hcase '"' hmem
      simp at hfalse
    have hmain : highlight ('"' :: (pre ++ '\n' :: post))
        = (TokenType.StringLiteral, '"' :: pre) :: highlight ('\n' :: post) := by
      have hnone : strFind (fun c => c == '"') (pre ++ '\n' :: post) = none := by
        apply strFind_eq_none_of
        intro c hc
        simp only [beq_eq_false_iff_ne]
        intro hceq
        subst hceq
        rcases List.mem_append.mp hc with hmem | hmem
        · exact hq hmem
        · rcases List.mem_cons.mp hmem with hmem2 | hmem2
          · exact absurd hmem2 (by decide)
          · exact hqpost hmem2
      have hnl : strFind (fun c => c == '\n') ('"' :: (pre ++ '\n' :: post))
          = some (pre.length + 1) := by
        rw [strFind]
        rw [if_neg (by decide)]
        rw [strFind_append_of_none _ _ _ hnpre]
        rw [strFind]
        rw [if_pos (by decide)]
        simp
      have hnval : ((strFind (fun c => c == '"') (pre ++ '\n' :: post)).map
            (fun i => i + 2)).getD
            ((strFind (fun c => c == '\n') ('"' :: (pre ++ '\n' :: post))).getD
              ((pre ++ '\n' :: post).length + 1))
          = pre.length + 1 := by
        rw [hnone, hnl]
        rfl
      rw [highlight_cons, nextToken_string, hnval, List.take_succ_cons,
        List.drop_succ_cons, List.take_left, List.drop_left]
    exact hmain
  · have hmain : highlight ('"' :: (pre ++ '\n' :: post))
        = (TokenType.StringLiteral, '"' :: (pre ++ '\n' :: post.take (i + 1)))
          :: highlight (post.drop (i + 1)) := by
      have hsome : strFind (fun c => c == '"') (pre ++ '\n' :: post)
          = some (pre.length + (i + 1)) := by
        rw [strFind_append_of_none _ _ _ hqpre]
        rw [strFind]
        rw [if_neg (by decide)]
        rw [hcase]
        simp only [Option.map_map, Option.map_some]
        show some (i + 1 + pre.length) = some (pre.length + (i + 1))
        simp only [Option.some.injEq]
        omega
      have hnval2 : ((strFind (fun c => c == '"') (pre ++ '\n' :: post)).map
            (fun i => i + 2)).getD
            ((strFind (fun c => c == '\n') ('"' :: (pre ++ '\n' :: post))).getD
              ((pre ++ '\n' :: post).length + 1))
          = (pre.length + (i + 2)) + 1 := by
        rw [hsome]
        show pre.length + (i + 1) + 2 = pre.length + (i + 2) + 1
        omega
      rw [highlight_cons, nextToken_string, hnval2, List.take_succ_cons,
        List.drop_succ_cons, List.take_append, List.drop_append,
        List.take_succ_cons, List.drop_succ_cons]
    exact hmain

/-- Claim C4 witness: two concrete inputs exercise both terminator cases.
For `"a<newline>b` (no closing quote anywhere) the string token is exactly
`"a`, stopping at the newline; for `"a<newline>b"c` (closing quote on the
next line) the token runs through that quote, swallowing the newline. -/
theorem string_token_newline_fallback_witness :
    ('"' : Char) ∉ ['a'] ∧ ('\n' : Char) ∉ ['a']
      ∧ (highlight ('"' :: (['a'] ++ '\n' :: ['b']))
        = match strFind (fun c => c == '"') ['b'] with
          | none => (TokenType.StringLiteral, '"' :: ['a'])
              :: highlight ('\n' :: ['b'])
          | some i => (TokenType.StringLiteral,
                '"' :: (['a'] ++ '\n' :: (['b']).take (i + 1)))
              :: highlight ((['b']).drop (i + 1)))
      ∧ (highlight ('"' :: (['a'] ++ '\n' :: ['b', '"', 'c']))
        = match strFind (fun c => c == '"') ['b', '"', 'c'] with
          | none => (TokenType.StringLiteral, '"' :: ['a'])
              :: highlight ('\n' :: ['b', '"', 'c'])
          | some i => (TokenType.StringLiteral,
                '"' :: (['a'] ++ '\n' :: (['b', '"', 'c']).take (i + 1)))
              :: highlight ((['b', '"', 'c']).drop (i + 1))) :=
  ⟨by decide, by decide,
    string_token_newline_fallback ['a'] ['b'] (by decide) (by decide),
    string_token_newline_fallback ['a'] ['b', '"', 'c'] (by decide) (by decide)⟩

theorem processSamples_getElem (script : Option (ℚ → Option ℚ))
    (sr t0 w : ℚ) (eo : Bool) :
    ∀ (buf : List (List ℚ)) (sid : ℕ) (pk : ℚ) (i : ℕ),
    (processSamples script sr t0 w eo sid pk buf).2[i]?
      = (buf[i]?).map (fun frame => frame.map
          (fun s => s * resolvedGain script (t0 + ((sid + i : ℕ) : ℚ) / sr))) := by
  intro buf
  induction buf with
  | nil => intro sid pk i; simp [processSamples]
  | cons frame rest ih =>
    intro sid pk i
    cases i with
    | zero => simp [processSamples]
    | succ j =>
      have harith : sid + 1 + j = sid + (j + 1) := by omega
      simp only [processSamples, List.getElem?_cons_succ]
      rw [ih (sid + 1) _ j, harith]

theorem processSamples_none_snd (sr t0 w : ℚ) (eo : Bool) :
    ∀ (buf : List (List ℚ)) (sid : ℕ) (pk : ℚ),
    (processSamples none sr t0 w eo sid pk buf).2
      = buf.map (fun frame => frame.map (fun s => s * 0)) := by
  intro buf
  induction buf with
  | nil => intro sid pk; simp [processSamples]
  | cons frame rest ih =>
    intro sid pk
    simp [processSamples, resolvedGain, gain_processed, ih]

/-- Claim C1: when the wrapped source fails to compile, the resolved gain is
`0` at every time, and every channel sample of the block is multiplied by
`0`; the model is total, so no panic escapes the block call. -/
theorem compile_failure_silences_block (compile : String → Option (ℚ → Option ℚ))
    (code : String) (sr t0 w : ℚ) (eo : Bool) (pk : ℚ) (buf : List (List ℚ))
    (h : compile (js_code code) = none) :
    (∀ t, resolvedGain (compile (js_code code)) t = 0)
    ∧ (process compile code sr t0 w eo pk buf).2.1
        = buf.map (fun frame => frame.map (fun s => s * 0)) := by
  constructor
  · intro t
    rw [h]
    rfl
  · show (processSamples (compile (js_code code)) sr t0 w eo 0 pk buf).2 = _
    rw [h]
    exact processSamples_none_snd sr t0 w eo buf 0 pk

/-- Claim C1 witness: a compile function rejecting the wrapped source of the
expression `)` zeroes a concrete block. -/
theorem compile_failure_silences_block_witness :
    ((fun _ : String => (none : Option (ℚ → Option ℚ))) (js_code ")") = none)
    ∧ ((∀ t, resolvedGain ((fun _ : String =>
          (none : Option (ℚ → Option ℚ))) (js_code ")")) t = 0)
      ∧ (process (fun _ : String => (none : Option (ℚ → Option ℚ))) ")"
          1 0 (1/2) true 0 [[3, 5], [2, 2]]).2.1
        = [[3, 5], [2, 2]].map (fun frame => frame.map (fun s => s * 0))) :=
  ⟨rfl, compile_failure_silences_block
    (fun _ : String => (none : Option (ℚ → Option ℚ))) ")" 1 0 (1/2) true 0
    [[3, 5], [2, 2]] rfl⟩

/-- Claim C2: in a block that compiled, a runtime failure of the call at
sample index `i` resolves that index's gain to silence (each channel sample
is multiplied by `0`), while an index `j` whose call succeeds with gain `g`
keeps that gain. -/
theorem invocation_error_silences_only_that_sample (f : ℚ → Option ℚ)
    (compile : String → Option (ℚ → Option ℚ)) (code : String)
    (sr t0 w : ℚ) (eo : Bool) (pk : ℚ) (buf : List (List ℚ)) (i j : ℕ) (g : ℚ)
    (hcomp : compile (js_code code) = some f)
    (hfail : f (t0 + (i : ℚ) / sr) = none)
    (hok : f (t0 + (j : ℚ) / sr) = some g) :
    (process compile code sr t0 w eo pk buf).2.1[i]?
      = (buf[i]?).map (fun frame => frame.map (fun s => s * 0))
    ∧ (process compile code sr t0 w eo pk buf).2.1[j]?
      = (buf[j]?).map (fun frame => frame.map (fun s => s * g)) := by
  have h1 := processSamples_getElem (some f) sr t0 w eo buf 0 pk i
  have h2 := processSamples_getElem (some f) sr t0 w eo buf 0 pk j
  have hgi : resolvedGain (some f) (t0 + ((0 + i : ℕ) : ℚ) / sr) = 0 := by
    show (f (t0 + ((0 + i : ℕ) : ℚ) / sr)).getD 0 = 0
    rw [Nat.zero_add]
    rw [hfail]
    rfl
  have hgj : resolvedGain (some f) (t0 + ((0 + j : ℕ) : ℚ) / sr) = g := by
    show (f (t0 + ((0 + j : ℕ) : ℚ) / sr)).getD 0 = g
    rw [Nat.zero_add]
    rw [hok]
    rfl
  rw [hgi] at h1
  rw [hgj] at h2
  show (processSamples (compile (js_code code)) sr t0 w eo 0 pk buf).2[i]? = _
    ∧ (processSamples (compile (js_code code)) sr t0 w eo 0 pk buf).2[j]? = _
  rw [hcomp]
  exact ⟨h1, h2⟩

/-- Claim C2 witness: with a callable failing at time `0` and returning `2`
at time `1`, the first frame of `[[1], [1]]` is zeroed and the second is
doubled. -/
theorem invocation_error_silences_only_that_sample_witness :
    ((fun _ : String =>
        some (fun t : ℚ => if t = 0 then none else some (2 : ℚ))) (js_code "x")
      = some (fun t : ℚ => if t = 0 then none else some (2 : ℚ)))
    ∧ ((fun t : ℚ => if t = 0 then none else some (2 : ℚ)) (0 + (0 : ℚ) / 1)
      = none)
    ∧ ((fun t : ℚ => if t = 0 then none else some (2 : ℚ)) (0 + (1 : ℚ) / 1)
      = some 2)
    ∧ (process (fun _ : String =>
          some (fun t : ℚ => if t = 0 then none else some (2 : ℚ))) "x"
        1 0 (1/2) true 0 [[1], [1]]).2.1[(0 : ℕ)]?
      = ([[1], [1]][(0 : ℕ)]?).map (fun frame =>
          frame.map (fun s : ℚ => s * 0))
    ∧ (process (fun _ : String =>
          some (fun t : ℚ => if t = 0 then none else some (2 : ℚ))) "x"
        1 0 (1/2) true 0 [[1], [1]]).2.1[(1 : ℕ)]?
      = ([[1], [1]][(1 : ℕ)]?).map (fun frame =>
          frame.map (fun s : ℚ => s * 2)) := by
  have h := invocation_error_silences_only_that_sample
    (fun t : ℚ => if t = 0 then none else some (2 : ℚ))
    (fun _ : String =>
      some (fun t : ℚ => if t = 0 then none else some (2 : ℚ))) "x"
    1 0 (1/2) true 0 [[1], [1]] 0 1 2 rfl (by norm_num) (by norm_num)
  exact ⟨rfl, by norm_num, by norm_num, h.1, h.2⟩

/-- Claim C5 counterexample: for the one-sample stereo block `[[3, 5]]` with
gain `1`, the code's meter compares `|(3 + 5) / 2| = 4` (division by the
channel count), not the claim's `|(3 + 5) / 1| = 8` (division by the number
of samples in the block); and for `[[1, -1]]` the code compares the signed
sum `0`, not the claim's summed magnitudes `2` (nor `1` after averaging). -/
theorem meter_amplitude_counterexample :
    (processSamples (some (fun _ => some 1)) 1 0 (1/2) true 0 0 [[3, 5]]).1 = 4
    ∧ (4 : ℚ) ≠ 8
    ∧ (processSamples (some (fun _ => some 1)) 1 0 (1/2) true 0 0
        [[1, -1]]).1 = 0
    ∧ (0 : ℚ) ≠ 2 ∧ (0 : ℚ) ≠ 1 := by
  refine ⟨?_, by norm_num, ?_, by norm_num, by norm_num⟩ <;>
    norm_num [processSamples, resolvedGain, gain_processed, peakUpdate]

/-- Claim C5 (amended): with the editor open, every peak-meter update
compares the previously stored peak with the per-sample-index amplitude:
the signed sum of the post-gain channel samples at that index, divided by
the number of channels at that index (the source's `num_samples` variable),
in absolute value. -/
theorem meter_amplitude_is_channel_average (script : Option (ℚ → Option ℚ))
    (sr t0 w : ℚ) : ∀ (buf : List (List ℚ)) (sid : ℕ) (pk : ℚ),
    (processSamples script sr t0 w true sid pk buf).1
      = peakTrajectory script sr t0 w sid pk buf := by
  intro buf
  induction buf with
  | nil => intro sid pk; rfl
  | cons frame rest ih =>
    intro sid pk
    simp only [processSamples, peakTrajectory, frameAmplitude, if_true]
    exact ih (sid + 1) _

/-- Claim C6 counterexample: the initial stored peak-meter value is the
constant `MINUS_INFINITY_DB = -100`, which is negative. -/
theorem peak_meter_init_negative :
    PeakReachable MINUS_INFINITY_DB ∧ ¬ (0 ≤ MINUS_INFINITY_DB) :=
  ⟨PeakReachable.init, by norm_num [MINUS_INFINITY_DB]⟩

/-- Claim C6 (amended): every reachable peak-meter state is either the
(negative) initial constant or nonnegative — every update with a
nonnegative measured amplitude and a decay weight in `[0, 1]` produces a
nonnegative value, whatever the previous state was. -/
theorem peak_meter_nonneg_after_update (s : ℚ) (h : PeakReachable s) :
    s = MINUS_INFINITY_DB ∨ 0 ≤ s := by
  induction h with
  | init => exact Or.inl rfl
  | step w amp cur hcur hamp hw hw1 ih =>
    right
    unfold peakUpdate
    split_ifs with hgt
    · exact hamp
    · push_neg at hgt
      have hcur0 : 0 ≤ cur := le_trans hamp hgt
      have h1 : 0 ≤ cur * w := mul_nonneg hcur0 hw
      have h2 : 0 ≤ amp * (1 - w) := mul_nonneg hamp (by linarith)
      linarith

/-- Claim C6 witness: one silent update from the initial state lands in the
nonnegative branch of the invariant. -/
theorem peak_meter_nonneg_after_update_witness :
    PeakReachable (peakUpdate (1/2 : ℚ) 0 MINUS_INFINITY_DB)
    ∧ (peakUpdate (1/2 : ℚ) 0 MINUS_INFINITY_DB = MINUS_INFINITY_DB
      ∨ 0 ≤ peakUpdate (1/2 : ℚ) 0 MINUS_INFINITY_DB) := by
  have hreach : PeakReachable (peakUpdate (1/2 : ℚ) 0 MINUS_INFINITY_DB) :=
    PeakReachable.step (1/2) 0 MINUS_INFINITY_DB PeakReachable.init
      (le_refl 0) (by norm_num) (by norm_num)
  exact ⟨hreach, peak_meter_nonneg_after_update _ hreach⟩

/-- Claim C7: the decay weight equals
`0.25 ^ (1 / (sample_rate * half_life_ms / 1000))` with `half_life_ms = 150`
and, for every positive sample rate (the state in which the evaluator runs,
`initialize` having been called), lies strictly between `0` and `1`. -/
theorem decay_weight_formula_in_unit_interval (sr : ℝ) (h : 0 < sr) :
    peak_meter_decay_weight sr = (0.25 : ℝ) ^ (1 / (sr * 150 / 1000))
    ∧ 0 < peak_meter_decay_weight sr ∧ peak_meter_decay_weight sr < 1 := by
  have hden : (0 : ℝ) < sr * PEAK_METER_DECAY_MS / 1000 := by
    rw [PEAK_METER_DECAY_MS]
    positivity
  refine ⟨?_, ?_, ?_⟩
  · rw [peak_meter_decay_weight, PEAK_METER_DECAY_MS, one_div]
    norm_num
  · exact Real.rpow_pos_of_pos (by norm_num) _
  · exact Real.rpow_lt_one (by norm_num) (by norm_num) (inv_pos.mpr hden)

/-- Claim C7 witness: at sample rate `2` the decay weight satisfies the
formula and the bounds. -/
theorem decay_weight_formula_in_unit_interval_witness :
    (0 : ℝ) < 2
    ∧ (peak_meter_decay_weight 2 = (0.25 : ℝ) ^ (1 / (2 * 150 / 1000 : ℝ))
      ∧ 0 < peak_meter_decay_weight 2 ∧ peak_meter_decay_weight 2 < 1) :=
  ⟨by norm_num, decay_weight_formula_in_unit_interval 2 (by norm_num)⟩

theorem peakUpdate_silence_iterate (w : ℝ) (hw : 0 ≤ w) :
    ∀ (n : ℕ) (P : ℝ), 0 ≤ P →
      (fun cur => peakUpdate w 0 cur)^[n] P = P * w ^ n := by
  intro n
  induction n with
  | zero => intro P hP; simp
  | succ n ih =>
    intro P hP
    rw [Function.iterate_succ_apply]
    have hstep : peakUpdate w 0 P = P * w := by
      unfold peakUpdate
      rw [if_neg (by simp [hP] : ¬ (0 : ℝ) > P)]
      ring
    rw [hstep, ih (P * w) (mul_nonneg hP hw)]
    ring

/-- Claim C8: from a nonnegative stored peak `P`, after
`sample_rate * half_life_ms / 1000` consecutive silent per-sample updates
the stored value is exactly `0.25 * P` in the real-number model (hence
within any numeric tolerance of it). -/
theorem silence_half_life_decay (sr : ℝ) (hsr : 0 < sr) (P : ℝ) (hP : 0 ≤ P)
    (n : ℕ) (hn : (n : ℝ) = sr * PEAK_METER_DECAY_MS / 1000) :
    (fun cur => peakUpdate (peak_meter_decay_weight sr) 0 cur)^[n] P
      = 0.25 * P := by
  have hw0 : 0 < peak_meter_decay_weight sr :=
    Real.rpow_pos_of_pos (by norm_num) _
  rw [peakUpdate_silence_iterate _ (le_of_lt hw0) n P hP]
  have hN : (0 : ℝ) < sr * PEAK_METER_DECAY_MS / 1000 := by
    rw [PEAK_METER_DECAY_MS]
    positivity
  have hpow : peak_meter_decay_weight sr ^ n = 0.25 := by
    rw [peak_meter_decay_weight]
    rw [← Real.rpow_natCast
      ((0.25 : ℝ) ^ (sr * PEAK_METER_DECAY_MS / 1000)⁻¹) n]
    rw [← Real.rpow_mul (by norm_num : (0 : ℝ) ≤ 0.25)]
    rw [hn, inv_mul_cancel₀ (ne_of_gt hN), Real.rpow_one]
  rw [hpow]
  ring

/-- Claim C8 witness: at sample rate `20` the half-life is `3` samples, and
three silent updates take the stored peak `1` to `0.25`. -/
theorem silence_half_life_decay_witness :
    (0 : ℝ) < 20 ∧ (0 : ℝ) ≤ 1
    ∧ ((3 : ℕ) : ℝ) = 20 * PEAK_METER_DECAY_MS / 1000
    ∧ (fun cur => peakUpdate (peak_meter_decay_weight 20) 0 cur)^[3] 1
      = 0.25 * 1 :=
  ⟨by norm_num, by norm_num, by norm_num [PEAK_METER_DECAY_MS],
    silence_half_life_decay 20 (by norm_num) 1 (by norm_num) 3
      (by norm_num [PEAK_METER_DECAY_MS])⟩

/-- Claim C10: the active expression slot is slot `p` for presets `1..5` and
slot `6` for every other preset value, including values outside the declared
`1..6` range. -/
theorem preset_slot_selection (p : ℤ) :
    RjvParams.code p
      = if p = 1 ∨ p = 2 ∨ p = 3 ∨ p = 4 ∨ p = 5 then p.toNat else 6 := by
  unfold RjvParams.code
  split_ifs with h1 h2 h3 h4 h5 h6 <;> simp_all
